import Mathlib

/-!
Verification of the text-annotation QC pipeline (process_annotations.py).

The pipeline has four stages: parse -> confidence-filter -> group-by-text ->
agreement-resolve, followed by an output writer.  This file gives a shallow
embedding of every stage and proves the spec's claims about them.

Modelling conventions:
* A CSV row (Python dict) is a record of optional string fields; `none` means
  the key is absent, so a Python `row[k]` lookup on it raises KeyError.
* Python floats are modelled exactly as rationals; `pyFloat` models the
  accepting fragment of CPython float() on finite decimal literals
  (optional sign, digits, fraction, exponent).  The inf/nan/underscore forms
  never occur in the data the spec describes and are out of scope.
* Python dicts preserve insertion order, so dict values are association lists.
* A Python set of labels is observed by the code only through its cardinality,
  its sole member when a singleton, and its sorted enumeration; it is modelled
  canonically by first-seen deduplication (`dedupFirst`), and claim C9 proves
  the pipeline output is invariant under any other enumeration of the set.
* Raising an exception is modelled with `Except`; `filter_by_confidence`
  returns `Except.error "KeyError"` exactly where the Python code raises an
  uncaught KeyError.
-/

/-- Lowercase hexadecimal digit of a value below 16, as in Python `"%04x"`. -/
def hexDigit (n : ℕ) : Char :=
  if n < 10 then Char.ofNat (48 + n) else Char.ofNat (87 + n)

/-- Value of a hexadecimal digit character. -/
def hexVal (c : Char) : Option ℕ :=
  if 48 ≤ c.toNat ∧ c.toNat ≤ 57 then some (c.toNat - 48)
  else if 97 ≤ c.toNat ∧ c.toNat ≤ 102 then some (c.toNat - 87)
  else if 65 ≤ c.toNat ∧ c.toNat ≤ 70 then some (c.toNat - 55)
  else none

/-- Per-character escaping of Python `json.dumps(..., ensure_ascii=False)`:
`"` and `\` get a backslash escape, the five short control escapes are used
for backspace, tab, newline, form feed and carriage return, every other
control character below U+0020 becomes `\u00XX`, and all remaining
characters are passed through verbatim. -/
def jsonEscapeChar (c : Char) : List Char :=
  if c = '"' then ['\\', '"']
  else if c = '\\' then ['\\', '\\']
  else if c = '\n' then ['\\', 'n']
  else if c = '\r' then ['\\', 'r']
  else if c = '\t' then ['\\', 't']
  else if c.toNat = 8 then ['\\', 'b']
  else if c.toNat = 12 then ['\\', 'f']
  else if c.toNat < 32 then
    ['\\', 'u', '0', '0', hexDigit (c.toNat / 16), hexDigit (c.toNat % 16)]
  else [c]

/-- JSON-escape a whole character sequence. -/
def escapeChars : List Char → List Char
  | [] => []
  | c :: r => jsonEscapeChar c ++ escapeChars r

/-- A JSON string literal: opening quote, escaped body, closing quote. -/
def jsonStr (s : String) : String :=
  String.mk ('"' :: (escapeChars s.data ++ ['"']))

/-- The line `json.dumps({"text": t, "label": lbl}, ensure_ascii=False)`
produces: compact object with the two keys in insertion order and
`", "` / `": "` separators. -/
def dumpsRecord (t lbl : String) : String :=
  "\x7b\"text\": " ++ jsonStr t ++ ", \"label\": " ++ jsonStr lbl ++ "\x7d"

/-- Decimal digits of a character list read as a natural number
(the caller guarantees all characters are digits). -/
def digitsToNat (l : List Char) : ℕ :=
  l.foldl (fun n c => 10 * n + (c.toNat - 48)) 0

/-- The rational `n * 10^e`, built with `mkRat` only. -/
def ratScale (n : ℤ) (e : ℤ) : ℚ :=
  if 0 ≤ e then mkRat (n * (10 : ℤ) ^ e.toNat) 1
  else mkRat n ((10 : ℕ) ^ (-e).toNat)

/-- Model of CPython `float(s)` on finite decimal literals, with the exact
value kept as a rational: optional sign, integer digits, optional fraction,
optional exponent part; at least one mantissa digit is required and no
characters may remain.  Returns `none` exactly where `float` raises
ValueError on such literals. -/
def pyFloat (s : String) : Option ℚ :=
  let sp : ℤ × List Char :=
    match s.data with
    | '-' :: r => (-1, r)
    | '+' :: r => (1, r)
    | r => (1, r)
  let ip := sp.2.takeWhile (·.isDigit)
  let r1 := sp.2.dropWhile (·.isDigit)
  let fq : List Char × List Char :=
    match r1 with
    | '.' :: r => (r.takeWhile (·.isDigit), r.dropWhile (·.isDigit))
    | r => ([], r)
  let fp := fq.1
  if ip.isEmpty && fp.isEmpty then none
  else
    let num : ℤ := sp.1 * ((digitsToNat ip : ℤ) * (10 : ℤ) ^ fp.length + (digitsToNat fp : ℤ))
    match fq.2 with
    | [] => some (ratScale num (-(fp.length : ℤ)))
    | e :: r3 =>
      if e = 'e' || e = 'E' then
        let es : ℤ × List Char :=
          match r3 with
          | '-' :: r => (-1, r)
          | '+' :: r => (1, r)
          | r => (1, r)
        let ed := es.2.takeWhile (·.isDigit)
        let r4 := es.2.dropWhile (·.isDigit)
        if ed.isEmpty || !r4.isEmpty then none
        else some (ratScale num (es.1 * (digitsToNat ed : ℤ) - (fp.length : ℤ)))
      else none

/-- A raw CSV row as a Python dict: each field of interest is present
(`some`) or absent (`none`).  `row[k]` on an absent field raises KeyError. -/
structure RawRecord where
  text : Option String
  annotator_id : Option String
  label : Option String
  confidence_score : Option String
deriving DecidableEq

/-- An accepted record after QC1, as built by `filter_by_confidence`:
text and label verbatim, `annotator_id` via `row.get` (possibly absent),
and the parsed confidence value. -/
structure Accepted where
  text : String
  annotator_id : Option String
  label : String
  confidence_score : ℚ
deriving DecidableEq

/-- Module-level constant `CONFIDENCE_THRESHOLD = 0.8`. -/
def CONFIDENCE_THRESHOLD : ℚ := mkRat 8 10

/-- Quality Check 1 (`filter_by_confidence`): per row, parse the confidence
(missing key or unparsable value is caught and the row skipped), keep the
row when the parsed value is `>= threshold`.  The kept row's dict literal
reads `row["text"]` and `row["label"]` outside the try block, so an absent
text or label there raises an uncaught KeyError and aborts the whole call. -/
def filter_by_confidence : List RawRecord → ℚ → Except String (List Accepted)
  | [], _ => Except.ok []
  | row :: rest, threshold =>
    match row.confidence_score with
    | none => filter_by_confidence rest threshold
    | some s =>
      match pyFloat s with
      | none => filter_by_confidence rest threshold
      | some confidence =>
        if threshold ≤ confidence then
          match row.text, row.label with
          | some t, some lb =>
            Except.map (fun out =>⟨t, row.annotator_id, lb, confidence⟩ :: out)
              (filter_by_confidence rest threshold)
          | _, _ => Except.error "KeyError"
        else filter_by_confidence rest threshold

/-- The confidence condition of QC1 on one row: the `confidence_score`
field is present, parses, and the value is at least the threshold. -/
def passesQC1 (threshold : ℚ) (row : RawRecord) : Bool :=
  match row.confidence_score with
  | none => false
  | some s =>
    match pyFloat s with
    | none => false
    | some confidence => threshold ≤ confidence

/-- Spec-side description of what QC1 yields for a single row: the accepted
record when the confidence condition holds and text/label are present. -/
def acceptedOf (threshold : ℚ) (row : RawRecord) : Option Accepted :=
  match row.confidence_score with
  | none => none
  | some s =>
    match pyFloat s with
    | none => none
    | some confidence =>
      if threshold ≤ confidence then
        match row.text, row.label with
        | some t, some lb => some ⟨t, row.annotator_id, lb, confidence⟩
        | _, _ => none
      else none

/-- First-seen deduplication with an explicit set of already-seen keys;
models the contents of a Python set built by insertion. -/
def dedupFirstAux (seen : List String) : List String → List String
  | [] => []
  | t :: r => if t ∈ seen then dedupFirstAux seen r else t :: dedupFirstAux (t :: seen) r

/-- First-seen deduplication: the distinct values of a list, each kept at
its first occurrence. -/
def dedupFirst (l : List String) : List String := dedupFirstAux [] l

/-- One step of `defaultdict(list)` accumulation: append `a` to the group
keyed `t`, creating the group at the end on first sight of the key. -/
def addToGroup (acc : List (String × List Accepted)) (t : String) (a : Accepted) :
    List (String × List Accepted) :=
  match acc with
  | [] => [(t, [a])]
  | (k, g) :: rest => if k = t then (k, g ++ [a]) :: rest else (k, g) :: addToGroup rest t a

/-- The grouper `group_by_text`: one pass over the accepted records, appending each to
the group of its `text` (Python `defaultdict(list)` with dict insertion
order). -/
def group_by_text (anns : List Accepted) : List (String × List Accepted) :=
  anns.foldl (fun acc a => addToGroup acc a.text a) []

/-- The set of distinct labels of a group, `{a["label"] for a in anns}`,
in its canonical first-seen enumeration. -/
def distinctLabels (anns : List Accepted) : List String :=
  dedupFirst (anns.map (·.label))

/-- Quality Check 2 (`apply_agreement_check`), generalised over the
enumeration `labelsOf` used for each group's label set (Python set
iteration order is arbitrary; C9 proves the output does not depend on it).
A singleton label set makes the text an agreed sample carrying that label
(`labels.pop()`); any other cardinality appends `(text, labels)` to the
disagreement list. -/
def apply_agreement_check_ord (labelsOf : List Accepted → List String) :
    List (String × List Accepted) → List (String × String) × List (String × List String)
  | [] => ([], [])
  | (t, anns) :: rest =>
    let res := apply_agreement_check_ord labelsOf rest
    match labelsOf anns with
    | [l] => ((t, l) :: res.1, res.2)
    | ls => (res.1, (t, ls) :: res.2)

/-- The resolver `apply_agreement_check` as in the source, with the canonical label-set
enumeration. -/
def apply_agreement_check (grouped : List (String × List Accepted)) :
    List (String × String) × List (String × List String) :=
  apply_agreement_check_ord distinctLabels grouped

/-- Code-point lexicographic comparison of character lists, the order
Python uses to compare strings. -/
def lexLe : List Char → List Char → Bool
  | [], _ => true
  | _ :: _, [] => false
  | a :: as, b :: bs => if a < b then true else if a = b then lexLe as bs else false

/-- Python string comparison: code-point lexicographic. -/
def strLe (a b : String) : Bool := lexLe a.data b.data

/-- The comparison `strLe` as a relation, for use with the sorting machinery. -/
def SLe (a b : String) : Prop := strLe a b = true

instance : DecidableRel SLe := fun a b => Bool.decEq (strLe a b) true

/-- Python `sorted` on a list of strings.  `sorted` is determined by the
order alone here: label lists are sorted under a total order with literal
string equality, so every correct sort returns this same list. -/
def sortedStrings (l : List String) : List String := l.insertionSort SLe

/-- Python `sep.join(parts)`: the parts with `sep` between consecutive
parts. -/
def joinSep (sep : String) : List String → String
  | [] => ""
  | [x] => x
  | x :: y :: r => x ++ sep ++ joinSep sep (y :: r)

/-- One record of the disagreement report:
`TEXT: <text> | LABELS: <sorted labels joined by comma-space>`. -/
def disagreementLine (t : String) (ls : List String) : String :=
  "TEXT: " ++ t ++ " | LABELS: " ++ joinSep ", " (sortedStrings ls)

/-- Contents of `clean_training_dataset.jsonl`: for each agreed sample in
dict order, `json.dumps({"text": text, "label": label})` plus a newline. -/
def writeClean (agreed : List (String × String)) : String :=
  String.join (agreed.map fun p => dumpsRecord p.1 p.2 ++ "\n")

/-- Contents of `disagreements.log`: for each disagreement in list order,
the formatted record plus a newline. -/
def writeDisagreements (dis : List (String × List String)) : String :=
  String.join (dis.map fun p => disagreementLine p.1 p.2 ++ "\n")

/-- The writer `write_outputs`: the byte contents of the two output files. -/
def write_outputs (agreed : List (String × String))
    (dis : List (String × List String)) : String × String :=
  (writeClean agreed, writeDisagreements dis)

/-- The full pipeline from parsed CSV rows, generalised over the label-set
enumeration (see `apply_agreement_check_ord`): filter, group, resolve,
write.  The error case is an uncaught exception escaping `main`. -/
def pipelineWith (labelsOf : List Accepted → List String)
    (input : List RawRecord) (threshold : ℚ) : Except String (String × String) :=
  Except.map
    (fun accepted =>
      let res := apply_agreement_check_ord labelsOf (group_by_text accepted)
      write_outputs res.1 res.2)
    (filter_by_confidence input threshold)

/-- The entry point `main` after parsing: the pipeline with the canonical set enumeration
and no further choice points. -/
def pipeline (input : List RawRecord) (threshold : ℚ) : Except String (String × String) :=
  pipelineWith distinctLabels input threshold

/-- Spec-side description of the grouper ("mapping from each distinct text
to the ordered sequence of its accepted records, first-seen order for both
the key set and within each group"). -/
def groupSpec (anns : List Accepted) : List (String × List Accepted) :=
  (dedupFirst (anns.map (·.text))).map fun t => (t, anns.filter fun a => a.text == t)

/-- The predicate: `labelsOf` is an enumeration of each group's label set: no duplicates
and exactly the members of the set of labels. -/
def IsLabelSetEnum (labelsOf : List Accepted → List String) : Prop :=
  ∀ anns : List Accepted,
    (labelsOf anns).Nodup ∧ ∀ s : String, s ∈ labelsOf anns ↔ s ∈ anns.map (·.label)

/-- Match an expected prefix of characters, returning the remainder. -/
def stripPrefixChars : List Char → List Char → Option (List Char)
  | [], r => some r
  | _ :: _, [] => none
  | p :: ps, c :: r => if c = p then stripPrefixChars ps r else none

/-- Decode a two-character JSON escape. -/
def decodeEscape (e : Char) : Option Char :=
  if e = '"' then some '"'
  else if e = '\\' then some '\\'
  else if e = '/' then some '/'
  else if e = 'n' then some '\n'
  else if e = 'r' then some '\r'
  else if e = 't' then some '\t'
  else if e = 'b' then some (Char.ofNat 8)
  else if e = 'f' then some (Char.ofNat 12)
  else none

/-- Parse the body of a JSON string literal (the cursor sits right after
the opening quote): decode escapes up to the closing quote, returning the
decoded characters and the input after the closing quote. -/
def parseJSONString : List Char → Option (List Char × List Char)
  | [] => none
  | c :: r =>
    if c = '"' then some ([], r)
    else if c = '\\' then
      match r with
      | [] => none
      | e :: r2 =>
        if e = 'u' then
          match r2 with
          | d1 :: d2 :: d3 :: d4 :: r3 =>
            match hexVal d1, hexVal d2, hexVal d3, hexVal d4 with
            | some v1, some v2, some v3, some v4 =>
              (parseJSONString r3).map fun p =>
                (Char.ofNat (((v1 * 16 + v2) * 16 + v3) * 16 + v4) :: p.1, p.2)
            | _, _, _, _ => none
          | _ => none
        else
          match decodeEscape e with
          | none => none
          | some d => (parseJSONString r2).map fun p => (d :: p.1, p.2)
    else (parseJSONString r).map fun p => (c :: p.1, p.2)

/-- Parse one clean-dataset line as the JSON object
`{"text": <string>, "label": <string>}` and nothing else: the two decoded
field values.  Used to state that each written line is independently
parseable and holds exactly these two fields. -/
def parseRecordLine (s : String) : Option (String × String) :=
  match stripPrefixChars "\x7b\"text\": \"".data s.data with
  | none => none
  | some r1 =>
    match parseJSONString r1 with
    | none => none
    | some (t, r2) =>
      match stripPrefixChars ", \"label\": \"".data r2 with
      | none => none
      | some r3 =>
        match parseJSONString r3 with
        | none => none
        | some (lb, r4) =>
          if r4 = ['\x7d'] then some (String.mk t, String.mk lb) else none

/-! ### Order properties of the code-point comparison -/

theorem lexLe_total : ∀ (a b : List Char), lexLe a b = true ∨ lexLe b a = true
  | [], _ => Or.inl rfl
  | _ :: _, [] => Or.inr rfl
  | a :: as, b :: bs => by
    rcases lt_trichotomy a b with h | h | h
    · left; simp [lexLe, h]
    · subst h
      rcases lexLe_total as bs with ih | ih <;> [left; right] <;> simpa [lexLe] using ih
    · right; simp [lexLe, h]

theorem lexLe_trans : ∀ {a b c : List Char},
    lexLe a b = true → lexLe b c = true → lexLe a c = true
  | [], _, _, _, _ => rfl
  | _ :: _, [], _, h1, _ => by simp [lexLe] at h1
  | _ :: _, _ :: _, [], _, h2 => by simp [lexLe] at h2
  | x :: xs, y :: ys, z :: zs, h1, h2 => by
    simp only [lexLe] at h1 h2 ⊢
    rcases lt_trichotomy x y with hxy | hxy | hxy
    · rcases lt_trichotomy y z with hyz | hyz | hyz
      · simp [lt_trans hxy hyz]
      · subst hyz; simp [hxy]
      · rw [if_neg (asymm hyz), if_neg (ne_of_gt hyz)] at h2
        simp at h2
    · subst hxy
      rw [if_neg (lt_irrefl x), if_pos rfl] at h1
      rcases lt_trichotomy x z with hxz | hxz | hxz
      · simp [hxz]
      · subst hxz
        rw [if_neg (lt_irrefl x), if_pos rfl] at h2 ⊢
        exact lexLe_trans h1 h2
      · rw [if_neg (asymm hxz), if_neg (ne_of_gt hxz)] at h2
        simp at h2
    · rw [if_neg (asymm hxy), if_neg (ne_of_gt hxy)] at h1
      simp at h1

theorem lexLe_antisymm : ∀ {a b : List Char},
    lexLe a b = true → lexLe b a = true → a = b
  | [], [], _, _ => rfl
  | [], _ :: _, _, h2 => by simp [lexLe] at h2
  | _ :: _, [], h1, _ => by simp [lexLe] at h1
  | x :: xs, y :: ys, h1, h2 => by
    simp only [lexLe] at h1 h2
    rcases lt_trichotomy x y with hxy | hxy | hxy
    · rw [if_neg (asymm hxy), if_neg (ne_of_gt hxy)] at h2
      simp at h2
    · subst hxy
      rw [if_neg (lt_irrefl x), if_pos rfl] at h1 h2
      exact congrArg (x :: ·) (lexLe_antisymm h1 h2)
    · rw [if_neg (asymm hxy), if_neg (ne_of_gt hxy)] at h1
      simp at h1

instance : IsTotal String SLe := ⟨fun a b => lexLe_total a.data b.data⟩

instance : IsTrans String SLe := ⟨fun _ _ _ h1 h2 => lexLe_trans h1 h2⟩

instance : IsAntisymm String SLe :=
  ⟨fun a b h1 h2 => by
    cases a; cases b; exact congrArg String.mk (lexLe_antisymm h1 h2)⟩

/-- Python `sorted` depends only on the multiset of inputs: permuted
label sets serialize identically. -/
theorem sortedStrings_congr {l₁ l₂ : List String} (h : l₁.Perm l₂) :
    sortedStrings l₁ = sortedStrings l₂ :=
  List.eq_of_perm_of_sorted
    ((List.perm_insertionSort SLe l₁).trans (h.trans (List.perm_insertionSort SLe l₂).symm))
    (List.sorted_insertionSort SLe l₁) (List.sorted_insertionSort SLe l₂)

theorem sortedStrings_perm (l : List String) : (sortedStrings l).Perm l :=
  List.perm_insertionSort SLe l

theorem sortedStrings_sorted (l : List String) : List.Sorted SLe (sortedStrings l) :=
  List.sorted_insertionSort SLe l

/-! ### First-seen deduplication -/

theorem mem_dedupFirstAux {x : String} :
    ∀ {l seen : List String}, x ∈ dedupFirstAux seen l ↔ x ∈ l ∧ x ∉ seen
  | [], seen => by simp [dedupFirstAux]
  | t :: r, seen => by
    by_cases h : t ∈ seen
    · rw [dedupFirstAux, if_pos h, mem_dedupFirstAux]
      by_cases hx : x = t
      · subst hx; simp [h]
      · simp [hx]
    · rw [dedupFirstAux, if_neg h]
      by_cases hx : x = t
      · subst hx; simp [h]
      · simp only [List.mem_cons, hx, false_or, mem_dedupFirstAux, List.mem_cons]

theorem nodup_dedupFirstAux : ∀ (l seen : List String), (dedupFirstAux seen l).Nodup
  | [], _ => List.nodup_nil
  | t :: r, seen => by
    by_cases h : t ∈ seen
    · rw [dedupFirstAux, if_pos h]; exact nodup_dedupFirstAux r seen
    · rw [dedupFirstAux, if_neg h, List.nodup_cons]
      refine ⟨fun hc => ?_, nodup_dedupFirstAux r (t :: seen)⟩
      exact (mem_dedupFirstAux.1 hc).2 (List.mem_cons_self t seen)

theorem dedupFirstAux_append :
    ∀ (l : List String) (seen : List String) (t : String),
      dedupFirstAux seen (l ++ [t]) =
        if t ∈ seen ∨ t ∈ l then dedupFirstAux seen l else dedupFirstAux seen l ++ [t]
  | [], seen, t => by
    by_cases h : t ∈ seen <;> simp [dedupFirstAux, h]
  | u :: r, seen, t => by
    by_cases h : u ∈ seen
    · rw [List.cons_append, dedupFirstAux, if_pos h, dedupFirstAux_append r seen t,
        dedupFirstAux, if_pos h]
      by_cases ht : t = u
      · subst ht; simp [h]
      · simp [ht]
    · rw [List.cons_append, dedupFirstAux, if_neg h, dedupFirstAux_append r (u :: seen) t,
        dedupFirstAux, if_neg h]
      by_cases ht : t = u
      · subst ht; simp [h]
      · by_cases htr : t ∈ seen ∨ t ∈ r
        · rw [if_pos, if_pos]
          · rcases htr with hh | hh
            · exact Or.inl hh
            · exact Or.inr (List.mem_cons_of_mem u hh)
          · rcases htr with hh | hh
            · exact Or.inl (List.mem_cons_of_mem u hh)
            · exact Or.inr hh
        · rw [if_neg, if_neg, List.cons_append]
          · intro hc
            rcases hc with hc | hc
            · exact htr (Or.inl hc)
            · rcases List.mem_cons.1 hc with hc' | hc'
              · exact ht hc'
              · exact htr (Or.inr hc')
          · intro hc
            rcases hc with hc | hc
            · rcases List.mem_cons.1 hc with hc' | hc'
              · exact ht hc'
              · exact htr (Or.inl hc')
            · exact htr (Or.inr hc)

theorem mem_dedupFirst {x : String} {l : List String} : x ∈ dedupFirst l ↔ x ∈ l := by
  rw [dedupFirst, mem_dedupFirstAux]; simp

theorem nodup_dedupFirst (l : List String) : (dedupFirst l).Nodup :=
  nodup_dedupFirstAux l []

theorem dedupFirst_append (l : List String) (t : String) :
    dedupFirst (l ++ [t]) = if t ∈ l then dedupFirst l else dedupFirst l ++ [t] := by
  rw [dedupFirst, dedupFirstAux_append l [] t]
  simp [dedupFirst]

theorem dedupFirst_ne_nil {x : String} {l : List String} (h : x ∈ l) :
    dedupFirst l ≠ [] := by
  intro hc
  exact (List.eq_nil_iff_forall_not_mem.1 hc x) (mem_dedupFirst.2 h)

/-! ### The grouper -/

theorem addToGroup_of_not_mem :
    ∀ {acc : List (String × List Accepted)} {t : String} {a : Accepted},
      t ∉ acc.map Prod.fst → addToGroup acc t a = acc ++ [(t, [a])]
  | [], _, _, _ => rfl
  | (k, g) :: rest, t, a, h => by
    have hk : ¬ k = t := fun hc => h (by simp [hc])
    rw [addToGroup, if_neg hk, addToGroup_of_not_mem (fun hc => h (List.mem_cons_of_mem _ hc)),
      List.cons_append]

theorem addToGroup_of_mem :
    ∀ {acc : List (String × List Accepted)} {t : String} {a : Accepted},
      (acc.map Prod.fst).Nodup → t ∈ acc.map Prod.fst →
      addToGroup acc t a = acc.map fun p => if p.1 = t then (p.1, p.2 ++ [a]) else p
  | [], _, _, _, hm => by simp at hm
  | (k, g) :: rest, t, a, hnd, hm => by
    rw [List.map_cons, List.nodup_cons] at hnd
    by_cases hk : k = t
    · subst hk
      rw [addToGroup, if_pos rfl, List.map_cons, if_pos rfl]
      have : rest.map (fun p => if p.1 = k then (p.1, p.2 ++ [a]) else p) = rest := by
        have : rest.map (fun p => if p.1 = k then (p.1, p.2 ++ [a]) else p)
            = rest.map id := by
          apply List.map_congr_left
          intro p hp
          have : ¬ p.1 = k := fun hc => hnd.1 (by
            rw [← hc]
            exact List.mem_map.2 ⟨p, hp, rfl⟩)
          simp [this]
        rw [this, List.map_id]
      rw [this]
    · have hm' : t ∈ rest.map Prod.fst := by
        rcases List.mem_cons.1 hm with hc | hc
        · exact absurd hc (fun hc' => hk hc'.symm)
        · exact hc
      rw [addToGroup, if_neg hk, addToGroup_of_mem hnd.2 hm', List.map_cons, if_neg hk]

theorem group_by_text_append (l : List Accepted) (a : Accepted) :
    group_by_text (l ++ [a]) = addToGroup (group_by_text l) a.text a := by
  rw [group_by_text, group_by_text, List.foldl_append]
  rfl

theorem keys_groupSpec (l : List Accepted) :
    (groupSpec l).map Prod.fst = dedupFirst (l.map (·.text)) := by
  rw [groupSpec, List.map_map]
  exact List.map_id _

theorem filter_text_eq_nil {t : String} {l : List Accepted}
    (h : t ∉ l.map (·.text)) : (l.filter fun a => a.text == t) = [] := by
  rw [List.filter_eq_nil_iff]
  intro a ha hc
  exact h (List.mem_map.2 ⟨a, ha, by simpa using hc⟩)

theorem groupSpec_append (l : List Accepted) (a : Accepted) :
    groupSpec (l ++ [a]) =
      if a.text ∈ l.map (·.text)
      then (groupSpec l).map fun p => if p.1 = a.text then (p.1, p.2 ++ [a]) else p
      else groupSpec l ++ [(a.text, [a])] := by
  have htexts : (l ++ [a]).map (·.text) = l.map (·.text) ++ [a.text] := by
    rw [List.map_append]; rfl
  by_cases h : a.text ∈ l.map (·.text)
  · rw [if_pos h, groupSpec, htexts, dedupFirst_append, if_pos h, groupSpec, List.map_map]
    apply List.map_congr_left
    intro t ht
    simp only [Function.comp]
    by_cases htt : t = a.text
    · subst htt
      rw [if_pos rfl, List.filter_append]
      simp
    · have hbe : (a.text == t) = false := by
        rw [beq_eq_false_iff_ne]
        exact fun hc => htt hc.symm
      rw [if_neg htt, List.filter_append]
      simp [hbe]
  · rw [if_neg h, groupSpec, htexts, dedupFirst_append, if_neg h, List.map_append, groupSpec]
    congr 1
    · apply List.map_congr_left
      intro t ht
      have htt : ¬ a.text = t := fun hc => h (by rw [hc]; exact mem_dedupFirst.1 ht)
      have hbe : (a.text == t) = false := by simp [htt]
      rw [List.filter_append]
      simp [hbe]
    · rw [List.map_singleton, List.filter_append, filter_text_eq_nil h]
      simp

/-- The grouper equals its specification: keys are the distinct texts in
first-seen order and each group is the ordered sublist of records with
that text. -/
theorem group_by_text_eq (l : List Accepted) : group_by_text l = groupSpec l := by
  induction l using List.reverseRecOn with
  | nil => rfl
  | append_singleton l a ih =>
    rw [group_by_text_append, ih, groupSpec_append]
    by_cases h : a.text ∈ l.map (·.text)
    · have hmem : a.text ∈ (groupSpec l).map Prod.fst := by
        rw [keys_groupSpec]; exact mem_dedupFirst.2 h
      have hnd : ((groupSpec l).map Prod.fst).Nodup := by
        rw [keys_groupSpec]; exact nodup_dedupFirst _
      rw [if_pos h, addToGroup_of_mem hnd hmem]
    · have hmem : a.text ∉ (groupSpec l).map Prod.fst := by
        rw [keys_groupSpec]; exact fun hc => h (mem_dedupFirst.1 hc)
      rw [if_neg h, addToGroup_of_not_mem hmem]

/-! ### The confidence filter -/

theorem filter_cons_skip {row : RawRecord} {rest : List RawRecord} {threshold : ℚ}
    (h : passesQC1 threshold row = false) :
    filter_by_confidence (row :: rest) threshold = filter_by_confidence rest threshold := by
  rcases hc : row.confidence_score with _ | s
  · simp [filter_by_confidence, hc]
  · rcases hf : pyFloat s with _ | c
    · simp [filter_by_confidence, hc, hf]
    · have hnle : ¬ threshold ≤ c := by
        simp [passesQC1, hc, hf] at h
        exact not_le.2 h
      simp [filter_by_confidence, hc, hf, hnle]

theorem filter_cons_error {row : RawRecord} {rest : List RawRecord} {threshold : ℚ}
    (h : passesQC1 threshold row = true) (hm : row.text = none ∨ row.label = none) :
    filter_by_confidence (row :: rest) threshold = Except.error "KeyError" := by
  rcases hc : row.confidence_score with _ | s
  · simp [passesQC1, hc] at h
  · rcases hf : pyFloat s with _ | c
    · simp [passesQC1, hc, hf] at h
    · have hle : threshold ≤ c := by simpa [passesQC1, hc, hf] using h
      rcases ht : row.text with _ | t <;> rcases hl : row.label with _ | lb
      · simp [filter_by_confidence, hc, hf, hle, ht, hl]
      · simp [filter_by_confidence, hc, hf, hle, ht, hl]
      · simp [filter_by_confidence, hc, hf, hle, ht, hl]
      · rcases hm with hm | hm
        · rw [ht] at hm; exact absurd hm (by simp)
        · rw [hl] at hm; exact absurd hm (by simp)

theorem filter_cons_keep {row : RawRecord} {rest : List RawRecord} {threshold : ℚ}
    {s : String} {c : ℚ} {t lb : String}
    (hc : row.confidence_score = some s) (hf : pyFloat s = some c) (hle : threshold ≤ c)
    (ht : row.text = some t) (hl : row.label = some lb) :
    filter_by_confidence (row :: rest) threshold =
      Except.map (fun out => ⟨t, row.annotator_id, lb, c⟩ :: out)
        (filter_by_confidence rest threshold) := by
  simp [filter_by_confidence, hc, hf, hle, ht, hl]

theorem except_map_eq_ok {α β : Type} {f : α → β} {e : Except String α} {b : β}
    (h : Except.map f e = Except.ok b) : ∃ a, e = Except.ok a ∧ b = f a := by
  cases e with
  | error err => simp [Except.map] at h
  | ok a => exact ⟨a, rfl, by simpa [Except.map] using h.symm⟩

theorem acceptedOf_eq_none_of_not_pass {row : RawRecord} {threshold : ℚ}
    (h : passesQC1 threshold row = false) : acceptedOf threshold row = none := by
  rcases hc : row.confidence_score with _ | s
  · simp [acceptedOf, hc]
  · rcases hf : pyFloat s with _ | c
    · simp [acceptedOf, hc, hf]
    · have hnle : ¬ threshold ≤ c := by
        simp [passesQC1, hc, hf] at h
        exact not_le.2 h
      simp [acceptedOf, hc, hf, hnle]

theorem acceptedOf_of_keep {row : RawRecord} {threshold : ℚ} {s : String} {c : ℚ} {t lb : String}
    (hc : row.confidence_score = some s) (hf : pyFloat s = some c) (hle : threshold ≤ c)
    (ht : row.text = some t) (hl : row.label = some lb) :
    acceptedOf threshold row = some ⟨t, row.annotator_id, lb, c⟩ := by
  simp [acceptedOf, hc, hf, hle, ht, hl]

/-- A successful filter run returns exactly the per-record description, and
every record that passes the confidence condition had text and label
present (otherwise the run would have raised KeyError). -/
theorem filter_ok_iff :
    ∀ {l : List RawRecord} {threshold : ℚ} {out : List Accepted},
      filter_by_confidence l threshold = Except.ok out →
      out = l.filterMap (acceptedOf threshold) ∧
      ∀ row ∈ l, passesQC1 threshold row = true → row.text ≠ none ∧ row.label ≠ none
  | [], threshold, out, h => by
    refine ⟨by simpa [filter_by_confidence] using (Except.ok.inj h).symm, by simp⟩
  | row :: rest, threshold, out, h => by
    by_cases hp : passesQC1 threshold row = true
    · by_cases hm : row.text = none ∨ row.label = none
      · rw [filter_cons_error hp hm] at h
        exact absurd h (by simp)
      · push_neg at hm
        rcases ht : row.text with _ | t
        · exact absurd ht hm.1
        rcases hl : row.label with _ | lb
        · exact absurd hl hm.2
        rcases hc : row.confidence_score with _ | s
        · simp [passesQC1, hc] at hp
        rcases hf : pyFloat s with _ | c
        · simp [passesQC1, hc, hf] at hp
        have hle : threshold ≤ c := by simpa [passesQC1, hc, hf] using hp
        rw [filter_cons_keep hc hf hle ht hl] at h
        obtain ⟨out', hout', rfl⟩ := except_map_eq_ok h
        obtain ⟨ih1, ih2⟩ := filter_ok_iff hout'
        refine ⟨?_, ?_⟩
        · rw [List.filterMap_cons, acceptedOf_of_keep hc hf hle ht hl, ih1]
        · intro r hr hpr
          rcases List.mem_cons.1 hr with rfl | hr'
          · exact ⟨by simp [ht], by simp [hl]⟩
          · exact ih2 r hr' hpr
    · rw [Bool.not_eq_true] at hp
      rw [filter_cons_skip hp] at h
      obtain ⟨ih1, ih2⟩ := filter_ok_iff h
      refine ⟨?_, ?_⟩
      · rw [List.filterMap_cons, acceptedOf_eq_none_of_not_pass hp, ih1]
      · intro r hr hpr
        rcases List.mem_cons.1 hr with rfl | hr'
        · rw [hp] at hpr; exact absurd hpr (by simp)
        · exact ih2 r hr' hpr

/-- Every record of a filterMap over `acceptedOf` meets the threshold. -/
theorem confidence_ge_of_mem_filterMap {threshold : ℚ} {a : Accepted} {l : List RawRecord}
    (h : a ∈ l.filterMap (acceptedOf threshold)) : threshold ≤ a.confidence_score := by
  obtain ⟨r, _, hr⟩ := List.mem_filterMap.1 h
  rcases hc : r.confidence_score with _ | s
  · simp [acceptedOf, hc] at hr
  rcases hf : pyFloat s with _ | c
  · simp [acceptedOf, hc, hf] at hr
  by_cases hle : threshold ≤ c
  · rcases ht : r.text with _ | t
    · simp [acceptedOf, hc, hf, hle, ht] at hr
    rcases hl : r.label with _ | lb
    · simp [acceptedOf, hc, hf, hle, ht, hl] at hr
    rw [acceptedOf_of_keep hc hf hle ht hl] at hr
    cases Option.some.inj hr
    simpa using hle
  · simp [acceptedOf, hc, hf, hle] at hr

/-- When text and label are present, `acceptedOf` yields a record exactly
when the confidence condition holds. -/
theorem acceptedOf_isSome_iff {row : RawRecord} {threshold : ℚ}
    (ht : row.text ≠ none) (hl : row.label ≠ none) :
    (acceptedOf threshold row).isSome = passesQC1 threshold row := by
  rcases hc : row.confidence_score with _ | s
  · simp [acceptedOf, passesQC1, hc]
  rcases hf : pyFloat s with _ | c
  · simp [acceptedOf, passesQC1, hc, hf]
  rcases htt : row.text with _ | t
  · exact absurd htt ht
  rcases hll : row.label with _ | lb
  · exact absurd hll hl
  by_cases hle : threshold ≤ c
  · rw [acceptedOf_of_keep hc hf hle htt hll]
    simp [passesQC1, hc, hf, hle]
  · simp [acceptedOf, passesQC1, hc, hf, hle]

/-! ### The agreement resolver -/

theorem mem_distinctLabels {s : String} {anns : List Accepted} :
    s ∈ distinctLabels anns ↔ s ∈ anns.map (·.label) := by
  rw [distinctLabels, mem_dedupFirst]

theorem nodup_distinctLabels (anns : List Accepted) : (distinctLabels anns).Nodup :=
  nodup_dedupFirst _

theorem distinctLabels_setEnum : IsLabelSetEnum distinctLabels :=
  fun anns => ⟨nodup_distinctLabels anns, fun _ => mem_distinctLabels⟩

theorem distinctLabels_ne_nil {anns : List Accepted} (h : anns ≠ []) :
    distinctLabels anns ≠ [] := by
  rcases anns with _ | ⟨a, r⟩
  · exact absurd rfl h
  · exact dedupFirst_ne_nil (x := a.label) (by simp)

theorem mem_groupSpec {t : String} {g : List Accepted} {l : List Accepted} :
    (t, g) ∈ groupSpec l ↔ t ∈ l.map (·.text) ∧ g = l.filter fun a => a.text == t := by
  rw [groupSpec, List.mem_map]
  constructor
  · rintro ⟨t', ht', heq⟩
    rw [Prod.mk.injEq] at heq
    obtain ⟨rfl, rfl⟩ := heq
    exact ⟨mem_dedupFirst.1 ht', rfl⟩
  · rintro ⟨ht, rfl⟩
    exact ⟨t, mem_dedupFirst.2 ht, rfl⟩

theorem groupSpec_group_ne_nil {t : String} {g : List Accepted} {l : List Accepted}
    (h : (t, g) ∈ groupSpec l) : g ≠ [] := by
  obtain ⟨ht, rfl⟩ := mem_groupSpec.1 h
  obtain ⟨a, ha, hat⟩ := List.mem_map.1 ht
  intro hc
  rw [List.filter_eq_nil_iff] at hc
  exact hc a ha (by simp [hat])

theorem text_eq_of_mem_group {t : String} {g : List Accepted} {l : List Accepted}
    {a : Accepted} (h : (t, g) ∈ groupSpec l) (ha : a ∈ g) : a.text = t := by
  obtain ⟨_, rfl⟩ := mem_groupSpec.1 h
  simpa using (List.mem_filter.1 ha).2

/-- Closed form of the agreement resolver: the agreed entries come from the
groups whose label set is a singleton, in group order, carrying the single
label; the disagreement entries come from all other groups, in group order,
carrying the enumerated label set. -/
theorem agreement_check_ord_eq (labelsOf : List Accepted → List String) :
    ∀ G : List (String × List Accepted),
      apply_agreement_check_ord labelsOf G =
        ((G.filter fun p => (labelsOf p.2).length == 1).map fun p =>
            (p.1, (labelsOf p.2).headI),
         (G.filter fun p => !((labelsOf p.2).length == 1)).map fun p =>
            (p.1, labelsOf p.2))
  | [] => rfl
  | (t, anns) :: rest => by
    rw [apply_agreement_check_ord, agreement_check_ord_eq labelsOf rest]
    rcases hls : labelsOf anns with _ | ⟨x, _ | ⟨y, ys⟩⟩ <;>
      simp [List.filter_cons, hls]

/-! ### The clean-dataset serializer -/

theorem hexVal_hexDigit : ∀ n : ℕ, n < 16 → hexVal (hexDigit n) = some n := by decide

theorem stripPrefixChars_append : ∀ (p r : List Char), stripPrefixChars p (p ++ r) = some r
  | [], r => rfl
  | c :: ps, r => by
    rw [List.cons_append]
    simp only [stripPrefixChars, if_pos rfl]
    exact stripPrefixChars_append ps r

theorem mk_data (s : String) : String.mk s.data = s := by cases s; rfl

/-- Round trip through the escaping: the string parser decodes an escaped
body up to its closing quote exactly to the original characters. -/
theorem parseJSONString_escape : ∀ (s rest : List Char),
    parseJSONString (escapeChars s ++ '"' :: rest) = some (s, rest)
  | [], rest => by
    rw [escapeChars, List.nil_append, parseJSONString.eq_def]
    simp
  | c :: cs, rest => by
    have ih := parseJSONString_escape cs rest
    rw [escapeChars, List.append_assoc]
    by_cases h1 : c = '"'
    · subst h1
      rw [jsonEscapeChar, if_pos rfl, List.cons_append, List.cons_append, List.nil_append,
        parseJSONString.eq_def]
      simp [decodeEscape, ih]
    · by_cases h2 : c = '\\'
      · subst h2
        rw [jsonEscapeChar, if_neg (by decide), if_pos rfl, List.cons_append, List.cons_append,
          List.nil_append, parseJSONString.eq_def]
        simp [decodeEscape, ih]
      · by_cases h3 : c = '\n'
        · subst h3
          rw [jsonEscapeChar, if_neg (by decide), if_neg (by decide), if_pos rfl,
            List.cons_append, List.cons_append, List.nil_append, parseJSONString.eq_def]
          simp [decodeEscape, ih]
        · by_cases h4 : c = '\r'
          · subst h4
            rw [jsonEscapeChar, if_neg (by decide), if_neg (by decide), if_neg (by decide),
              if_pos rfl, List.cons_append, List.cons_append, List.nil_append,
              parseJSONString.eq_def]
            simp [decodeEscape, ih]
          · by_cases h5 : c = '\t'
            · subst h5
              rw [jsonEscapeChar, if_neg (by decide), if_neg (by decide), if_neg (by decide),
                if_neg (by decide), if_pos rfl, List.cons_append, List.cons_append,
                List.nil_append, parseJSONString.eq_def]
              simp [decodeEscape, ih]
            · by_cases h6 : c.toNat = 8
              · have hc : Char.ofNat 8 = c := by rw [← h6]; exact Char.ofNat_toNat c
                rw [jsonEscapeChar, if_neg h1, if_neg h2, if_neg h3, if_neg h4, if_neg h5,
                  if_pos h6, List.cons_append, List.cons_append, List.nil_append,
                  parseJSONString.eq_def]
                simp [decodeEscape, ih]
                exact hc
              · by_cases h7 : c.toNat = 12
                · have hc : Char.ofNat 12 = c := by rw [← h7]; exact Char.ofNat_toNat c
                  rw [jsonEscapeChar, if_neg h1, if_neg h2, if_neg h3, if_neg h4, if_neg h5,
                    if_neg h6, if_pos h7, List.cons_append, List.cons_append, List.nil_append,
                    parseJSONString.eq_def]
                  simp [decodeEscape, ih]
                  exact hc
                · by_cases h8 : c.toNat < 32
                  · have h0 : hexVal '0' = some 0 := by decide
                    have e1 : hexVal (hexDigit (c.toNat / 16)) = some (c.toNat / 16) :=
                      hexVal_hexDigit _ (by omega)
                    have e2 : hexVal (hexDigit (c.toNat % 16)) = some (c.toNat % 16) :=
                      hexVal_hexDigit _ (by omega)
                    have hv : c.toNat / 16 * 16 + c.toNat % 16 = c.toNat := by omega
                    rw [jsonEscapeChar, if_neg h1, if_neg h2, if_neg h3, if_neg h4, if_neg h5,
                      if_neg h6, if_neg h7, if_pos h8, List.cons_append, List.cons_append,
                      List.cons_append, List.cons_append, List.cons_append, List.cons_append,
                      List.nil_append, parseJSONString.eq_def]
                    simp [h0, e1, e2, ih, hv, Char.ofNat_toNat]
                  · rw [jsonEscapeChar, if_neg h1, if_neg h2, if_neg h3, if_neg h4, if_neg h5,
                      if_neg h6, if_neg h7, if_neg h8, List.cons_append, List.nil_append,
                      parseJSONString.eq_def]
                    simp [h1, h2, ih]

/-- Each written clean-dataset line parses back to exactly its two fields:
the lines are independently parseable records with fields text and label. -/
theorem parseRecordLine_dumpsRecord (t lbl : String) :
    parseRecordLine (dumpsRecord t lbl) = some (t, lbl) := by
  have hdata : (dumpsRecord t lbl).data
      = "\x7b\"text\": \"".data
        ++ (escapeChars t.data
            ++ '"' :: (", \"label\": \"".data
                ++ (escapeChars lbl.data ++ '"' :: ['\x7d']))) := by
    have hpre1 : "\x7b\"text\": \"".data = "\x7b\"text\": ".data ++ ['"'] := by decide
    have hpre2 : ", \"label\": \"".data = ", \"label\": ".data ++ ['"'] := by decide
    simp [dumpsRecord, jsonStr, String.data_append, hpre1, hpre2]
  rw [parseRecordLine, hdata]
  simp only [stripPrefixChars_append, parseJSONString_escape]
  simp [mk_data]

/-! ### Output byte-level facts -/

theorem join_foldl_data : ∀ (L : List String) (acc : String),
    (L.foldl (fun r s => r ++ s) acc).data = acc.data ++ (L.map String.data).flatten
  | [], acc => by simp
  | x :: L, acc => by
    rw [List.foldl_cons, join_foldl_data L (acc ++ x)]
    simp [String.data_append, List.append_assoc]

theorem data_stringJoin (L : List String) :
    (String.join L).data = (L.map String.data).flatten := by
  have h := join_foldl_data L ""
  simpa [String.join] using h

theorem hexDigit_ne_newline : ∀ n : ℕ, n < 16 → hexDigit n ≠ '\n' := by decide

theorem newline_not_mem_jsonEscapeChar (c : Char) : '\n' ∉ jsonEscapeChar c := by
  intro hmem
  rw [jsonEscapeChar] at hmem
  split_ifs at hmem with h1 h2 h3 h4 h5 h6 h7 h8 <;>
    simp only [List.mem_cons, List.not_mem_nil, or_false] at hmem
  · exact absurd hmem (by decide)
  · exact absurd hmem (by decide)
  · exact absurd hmem (by decide)
  · exact absurd hmem (by decide)
  · exact absurd hmem (by decide)
  · exact absurd hmem (by decide)
  · exact absurd hmem (by decide)
  · rcases hmem with hm | hm | hm | hm | hm | hm
    · exact absurd hm (by decide)
    · exact absurd hm (by decide)
    · exact absurd hm (by decide)
    · exact absurd hm (by decide)
    · exact hexDigit_ne_newline _ (by omega) hm.symm
    · exact hexDigit_ne_newline _ (by omega) hm.symm
  · rw [← hmem] at h8
    exact h8 (by decide)

theorem newline_not_mem_escapeChars : ∀ (s : List Char), '\n' ∉ escapeChars s
  | [] => by simp [escapeChars]
  | c :: r => by
    rw [escapeChars]
    intro h
    rcases List.mem_append.1 h with h' | h'
    · exact newline_not_mem_jsonEscapeChar c h'
    · exact newline_not_mem_escapeChars r h'

theorem dumpsRecord_data (t lbl : String) :
    (dumpsRecord t lbl).data
      = "\x7b\"text\": \"".data
        ++ (escapeChars t.data
            ++ '"' :: (", \"label\": \"".data
                ++ (escapeChars lbl.data ++ '"' :: ['\x7d']))) := by
  have hpre1 : "\x7b\"text\": \"".data = "\x7b\"text\": ".data ++ ['"'] := by decide
  have hpre2 : ", \"label\": \"".data = ", \"label\": ".data ++ ['"'] := by decide
  simp [dumpsRecord, jsonStr, String.data_append, hpre1, hpre2]

theorem newline_not_mem_dumpsRecord (t lbl : String) : '\n' ∉ (dumpsRecord t lbl).data := by
  intro h
  rw [dumpsRecord_data] at h
  rcases List.mem_append.1 h with h | h
  · exact absurd h (by decide)
  · rcases List.mem_append.1 h with h | h
    · exact newline_not_mem_escapeChars t.data h
    · simp only [List.mem_cons] at h
      rcases h with h | h
      · exact absurd h (by decide)
      · rcases List.mem_append.1 h with h | h
        · exact absurd h (by decide)
        · rcases List.mem_append.1 h with h | h
          · exact newline_not_mem_escapeChars lbl.data h
          · exact absurd h (by decide)

theorem data_writeClean (agreed : List (String × String)) :
    (writeClean agreed).data
      = (agreed.map fun p => (dumpsRecord p.1 p.2).data ++ ['\n']).flatten := by
  rw [writeClean, data_stringJoin, List.map_map]
  congr 1

/-- The clean dataset holds exactly one newline-terminated record per
agreed sample. -/
theorem count_newline_writeClean (agreed : List (String × String)) :
    ((writeClean agreed).data).count '\n' = agreed.length := by
  rw [data_writeClean]
  induction agreed with
  | nil => simp
  | cons p r ih =>
    simp only [List.map_cons, List.flatten_cons, List.count_append, ih]
    rw [List.count_eq_zero.2 (newline_not_mem_dumpsRecord p.1 p.2)]
    simp
    omega

theorem mem_joinSep_data : ∀ {x : Char} (L : List String) {sep : String},
    x ∈ (joinSep sep L).data → x ∈ sep.data ∨ ∃ s ∈ L, x ∈ s.data
  | x, [], sep, h => by simp [joinSep] at h
  | x, [y], sep, h => Or.inr ⟨y, by simp, h⟩
  | x, y :: z :: r, sep, h => by
    rw [joinSep, String.data_append, String.data_append] at h
    rcases List.mem_append.1 h with h' | h'
    · rcases List.mem_append.1 h' with h'' | h''
      · exact Or.inr ⟨y, by simp, h''⟩
      · exact Or.inl h''
    · rcases mem_joinSep_data (z :: r) h' with h'' | ⟨s, hs, hx⟩
      · exact Or.inl h''
      · exact Or.inr ⟨s, List.mem_cons_of_mem y hs, hx⟩

theorem newline_not_mem_disagreementLine {t : String} {ls : List String}
    (ht : '\n' ∉ t.data) (hl : ∀ s ∈ ls, '\n' ∉ s.data) :
    '\n' ∉ (disagreementLine t ls).data := by
  intro h
  simp only [disagreementLine, String.data_append, List.mem_append] at h
  rcases h with ((h' | h') | h') | h'
  · exact absurd h' (by decide)
  · exact ht h'
  · exact absurd h' (by decide)
  · rcases mem_joinSep_data _ h' with h'' | ⟨s, hs, hx⟩
    · exact absurd h'' (by decide)
    · exact hl s ((sortedStrings_perm ls).mem_iff.1 hs) hx

theorem data_writeDisagreements (dis : List (String × List String)) :
    (writeDisagreements dis).data
      = (dis.map fun p => (disagreementLine p.1 p.2).data ++ ['\n']).flatten := by
  rw [writeDisagreements, data_stringJoin, List.map_map]
  congr 1

/-- When no written record contains an interior newline, the disagreement
report holds exactly one newline-terminated record per disagreement. -/
theorem count_newline_writeDisagreements (dis : List (String × List String))
    (h : ∀ p ∈ dis, '\n' ∉ (disagreementLine p.1 p.2).data) :
    ((writeDisagreements dis).data).count '\n' = dis.length := by
  rw [data_writeDisagreements]
  induction dis with
  | nil => simp
  | cons p r ih =>
    simp only [List.map_cons, List.flatten_cons, List.count_append,
      ih fun q hq => h q (List.mem_cons_of_mem p hq)]
    rw [List.count_eq_zero.2 (h p (List.mem_cons_self p r))]
    simp
    omega

/-! ### Independence from set-enumeration order -/

theorem writeDisagreements_factor (dis : List (String × List String)) :
    writeDisagreements dis
      = String.join ((dis.map fun p => (p.1, sortedStrings p.2)).map
          fun q => "TEXT: " ++ q.1 ++ " | LABELS: " ++ joinSep ", " q.2 ++ "\n") := by
  rw [writeDisagreements, List.map_map]
  rfl

/-- The resolver's observable output through the writers does not depend on
which enumeration of each group's label set is used: the agreed entries
coincide and the disagreement entries coincide after sorting their labels. -/
theorem agreement_ord_output_eq {lo₁ lo₂ : List Accepted → List String}
    (h₁ : IsLabelSetEnum lo₁) (h₂ : IsLabelSetEnum lo₂) :
    ∀ G : List (String × List Accepted),
      (apply_agreement_check_ord lo₁ G).1 = (apply_agreement_check_ord lo₂ G).1 ∧
      ((apply_agreement_check_ord lo₁ G).2.map fun p => (p.1, sortedStrings p.2))
        = ((apply_agreement_check_ord lo₂ G).2.map fun p => (p.1, sortedStrings p.2))
  | [] => ⟨rfl, rfl⟩
  | (t, anns) :: rest => by
    obtain ⟨ih1, ih2⟩ := agreement_ord_output_eq h₁ h₂ rest
    have hperm : (lo₁ anns).Perm (lo₂ anns) := by
      rcases h₁ anns with ⟨hn₁, hm₁⟩
      rcases h₂ anns with ⟨hn₂, hm₂⟩
      exact (List.perm_ext_iff_of_nodup hn₁ hn₂).2 fun a => (hm₁ a).trans (hm₂ a).symm
    rw [apply_agreement_check_ord, apply_agreement_check_ord]
    rcases hls : lo₁ anns with _ | ⟨x, _ | ⟨y, ys⟩⟩
    · rw [hls] at hperm
      have h2nil : lo₂ anns = [] := hperm.symm.eq_nil
      rw [h2nil]
      exact ⟨ih1, by simp [ih2, sortedStrings_congr hperm]⟩
    · rw [hls] at hperm
      have h2x : lo₂ anns = [x] := List.perm_singleton.1 hperm.symm
      rw [h2x]
      exact ⟨by simp [ih1], ih2⟩
    · rw [hls] at hperm
      rcases hls2 : lo₂ anns with _ | ⟨x2, _ | ⟨y2, ys2⟩⟩
      · rw [hls2] at hperm
        exact absurd hperm.length_eq (by simp)
      · rw [hls2] at hperm
        exact absurd hperm.length_eq (by simp)
      · rw [hls2] at hperm
        refine ⟨ih1, ?_⟩
        simp only [List.map_cons, ih2]
        rw [sortedStrings_congr hperm]

/-- Byte-level pipeline invariance under the label-set enumeration. -/
theorem pipelineWith_congr {lo₁ lo₂ : List Accepted → List String}
    (h₁ : IsLabelSetEnum lo₁) (h₂ : IsLabelSetEnum lo₂)
    (input : List RawRecord) (threshold : ℚ) :
    pipelineWith lo₁ input threshold = pipelineWith lo₂ input threshold := by
  rw [pipelineWith, pipelineWith]
  cases hf : filter_by_confidence input threshold with
  | error e => rfl
  | ok accepted =>
    obtain ⟨e1, e2⟩ := agreement_ord_output_eq h₁ h₂ (group_by_text accepted)
    simp only [Except.map]
    rw [write_outputs, write_outputs, e1, writeDisagreements_factor,
      writeDisagreements_factor, e2]

/-- The reversed canonical enumeration: another valid label-set
enumeration, used to witness order-independence. -/
theorem reverse_setEnum : IsLabelSetEnum fun anns => (distinctLabels anns).reverse :=
  fun anns =>
    ⟨List.nodup_reverse.2 (nodup_distinctLabels anns),
     fun s => by rw [List.mem_reverse]; exact mem_distinctLabels⟩

/-! ### Partition facts for the grouper -/

theorem count_filter_text {a : Accepted} {l : List Accepted} {t : String} :
    List.count a (l.filter fun x => x.text == t) = if a.text = t then List.count a l else 0 := by
  by_cases h : a.text = t
  · rw [if_pos h]
    exact List.count_filter (by simp [h])
  · rw [if_neg h, List.count_eq_zero]
    intro hc
    exact h (by simpa using (List.mem_filter.1 hc).2)

theorem sum_counts_over_keys :
    ∀ {keys : List String}, keys.Nodup → ∀ (a : Accepted) (l : List Accepted),
      (keys.map fun t => List.count a (l.filter fun x => x.text == t)).sum
        = if a.text ∈ keys then List.count a l else 0 := by
  intro keys
  induction keys with
  | nil => intro _ a l; simp
  | cons k ks ih =>
    intro hnd a l
    rw [List.nodup_cons] at hnd
    rw [List.map_cons, List.sum_cons, count_filter_text, ih hnd.2 a l]
    by_cases hk : a.text = k
    · rw [if_pos hk, if_neg (hk ▸ hnd.1), if_pos (by simp [hk])]
      omega
    · rw [if_neg hk]
      by_cases hks : a.text ∈ ks
      · rw [if_pos hks, if_pos (List.mem_cons_of_mem k hks)]
        omega
      · rw [if_neg hks, if_neg (by simp [hk, hks])]

/-- Flattening the groups recovers the accepted records up to permutation:
every accepted record lands in exactly one group. -/
theorem groupSpec_flatten_perm (l : List Accepted) :
    ((groupSpec l).flatMap Prod.snd).Perm l := by
  rw [List.perm_iff_count]
  intro a
  have hflat : (groupSpec l).flatMap Prod.snd
      = (dedupFirst (l.map (·.text))).flatMap fun t => l.filter fun x => x.text == t := by
    rw [groupSpec, List.flatMap_map]
  rw [hflat, List.flatMap_def, List.count_flatten, List.map_map,
    show (List.count a ∘ fun t => l.filter fun x => x.text == t)
        = fun t => List.count a (l.filter fun x => x.text == t) from rfl,
    sum_counts_over_keys (nodup_dedupFirst _) a l]
  by_cases hm : a.text ∈ dedupFirst (l.map (·.text))
  · rw [if_pos hm]
  · rw [if_neg hm, eq_comm, List.count_eq_zero]
    intro hc
    exact hm (mem_dedupFirst.2 (List.mem_map.2 ⟨a, hc, rfl⟩))

/-! ### Claims -/

/-- C1 (amended).  For every run of the confidence filter that completes
without raising (result `Except.ok`), the filter produced an
AcceptedAnnotation for a record if and only if its confidence_score field
is present, parses as a number, and its value is ≥ τ: the output is
exactly the per-record description `acceptedOf`, and on every input record
`acceptedOf` is populated exactly when the confidence condition `passesQC1`
holds.  Consequently every accepted annotation a satisfies
a.confidence_score ≥ τ (inclusive boundary).  The claim as originally
stated, quantified over every raw record with no proviso, is refuted by
the counterexample: a record that passes the confidence condition but
lacks text or label makes the filter raise KeyError and produce nothing. -/
theorem claimC1 (l : List RawRecord) (threshold : ℚ) (out : List Accepted)
    (h : filter_by_confidence l threshold = Except.ok out) :
    out = l.filterMap (acceptedOf threshold) ∧
    (∀ row ∈ l, (acceptedOf threshold row).isSome = passesQC1 threshold row) ∧
    ∀ a ∈ out, threshold ≤ a.confidence_score := by
  obtain ⟨h1, h2⟩ := filter_ok_iff h
  refine ⟨h1, ?_, ?_⟩
  · intro row hrow
    by_cases hp : passesQC1 threshold row = true
    · obtain ⟨ht, hl⟩ := h2 row hrow hp
      rw [acceptedOf_isSome_iff ht hl]
    · rw [Bool.not_eq_true] at hp
      rw [hp, acceptedOf_eq_none_of_not_pass hp]
      rfl
  · intro a ha
    rw [h1] at ha
    exact confidence_ge_of_mem_filterMap ha

/-- C1 counterexample.  The record `{confidence_score: "0.9"}` (text and
label absent) satisfies the confidence condition of the claim, yet the
filter raises KeyError instead of producing an AcceptedAnnotation for it,
so the claimed biconditional fails as stated. -/
theorem claimC1_cex :
    passesQC1 CONFIDENCE_THRESHOLD ⟨none, none, none, some "0.9"⟩ = true ∧
    filter_by_confidence [⟨none, none, none, some "0.9"⟩] CONFIDENCE_THRESHOLD
      = Except.error "KeyError" :=
  ⟨by decide, by rfl⟩

/-- C1 witness at the spec's first scenario. -/
theorem claimC1_witness :
    ([⟨"hello", some "alice", "pos", mkRat 9 10⟩] : List Accepted)
        = List.filterMap (acceptedOf CONFIDENCE_THRESHOLD)
            [⟨some "hello", some "alice", some "pos", some "0.9"⟩,
             ⟨some "world", some "carol", some "neg", some "0.5"⟩] ∧
    CONFIDENCE_THRESHOLD
      ≤ (Accepted.mk "hello" (some "alice") "pos" (mkRat 9 10)).confidence_score :=
  ⟨(claimC1 [⟨some "hello", some "alice", some "pos", some "0.9"⟩,
      ⟨some "world", some "carol", some "neg", some "0.5"⟩] CONFIDENCE_THRESHOLD
      [⟨"hello", some "alice", "pos", mkRat 9 10⟩] (by rfl)).1,
   (claimC1 [⟨some "hello", some "alice", some "pos", some "0.9"⟩,
      ⟨some "world", some "carol", some "neg", some "0.5"⟩] CONFIDENCE_THRESHOLD
      [⟨"hello", some "alice", "pos", mkRat 9 10⟩] (by rfl)).2.2
      ⟨"hello", some "alice", "pos", mkRat 9 10⟩ (by simp)⟩

/-- C2 (amended).  The filter never raises for confidence-related
per-record problems: a row failing the confidence condition (missing,
non-numeric, or low confidence_score) is dropped and processing of the
remaining rows continues.  But a row that passes the confidence condition
while its text or label field is absent raises an uncaught KeyError that
aborts the whole run, so the original claim that no per-record problem
ever raises is refuted by the counterexample. -/
theorem claimC2 (row : RawRecord) (rest : List RawRecord) (threshold : ℚ) :
    (passesQC1 threshold row = false →
      filter_by_confidence (row :: rest) threshold = filter_by_confidence rest threshold) ∧
    (passesQC1 threshold row = true → (row.text = none ∨ row.label = none) →
      filter_by_confidence (row :: rest) threshold = Except.error "KeyError") :=
  ⟨fun h => filter_cons_skip h, fun h hm => filter_cons_error h hm⟩

/-- C2 counterexample.  A malformed row (text absent, label present,
confidence 0.9) makes the filter raise KeyError: the exception escapes
instead of the row being dropped. -/
theorem claimC2_cex :
    filter_by_confidence [⟨none, none, some "cat", some "0.9"⟩] CONFIDENCE_THRESHOLD
      = Except.error "KeyError" := by rfl

/-- C2 witness: a low-confidence row is dropped with processing
continuing, and a passing row without text raises. -/
theorem claimC2_witness :
    (filter_by_confidence [⟨some "w", some "c", some "neg", some "0.5"⟩]
        CONFIDENCE_THRESHOLD
      = filter_by_confidence [] CONFIDENCE_THRESHOLD) ∧
    (filter_by_confidence [⟨none, none, some "cat", some "0.9"⟩] CONFIDENCE_THRESHOLD
      = Except.error "KeyError") :=
  ⟨(claimC2 ⟨some "w", some "c", some "neg", some "0.5"⟩ [] CONFIDENCE_THRESHOLD).1
      (by decide),
   (claimC2 ⟨none, none, some "cat", some "0.9"⟩ [] CONFIDENCE_THRESHOLD).2
      (by decide) (Or.inl rfl)⟩

/-- C3.  A record whose confidence_score is missing, fails to parse, or
parses below τ is silently dropped: filtering the list with the record is
the same as filtering without it — no output record, no error, and (the
filter's only effect being its return value, the source containing no
logging call) no per-record log entry. -/
theorem claimC3 (row : RawRecord) (rest : List RawRecord) (threshold : ℚ)
    (h : row.confidence_score = none
        ∨ (∃ s, row.confidence_score = some s ∧ pyFloat s = none)
        ∨ (∃ s c, row.confidence_score = some s ∧ pyFloat s = some c ∧ c < threshold)) :
    filter_by_confidence (row :: rest) threshold = filter_by_confidence rest threshold := by
  apply filter_cons_skip
  rcases h with h | ⟨s, hs, hf⟩ | ⟨s, c, hs, hf, hlt⟩
  · simp [passesQC1, h]
  · simp [passesQC1, hs, hf]
  · simp [passesQC1, hs, hf]
    exact hlt

/-- C3 witness: the spec's scenario of a row with confidence_score "abc",
dropped regardless of its label. -/
theorem claimC3_witness :
    filter_by_confidence [⟨some "x", some "a", some "cat", some "abc"⟩]
        CONFIDENCE_THRESHOLD
      = filter_by_confidence [] CONFIDENCE_THRESHOLD :=
  claimC3 ⟨some "x", some "a", some "cat", some "abc"⟩ [] CONFIDENCE_THRESHOLD
    (Or.inr (Or.inl ⟨"abc", rfl, by decide⟩))

/-- The resolver's two key sequences are subsequences of the group key
sequence. -/
theorem resolver_keys_sublist (labelsOf : List Accepted → List String) :
    ∀ G : List (String × List Accepted),
      ((apply_agreement_check_ord labelsOf G).1.map Prod.fst).Sublist (G.map Prod.fst) ∧
      ((apply_agreement_check_ord labelsOf G).2.map Prod.fst).Sublist (G.map Prod.fst)
  | [] => ⟨List.Sublist.refl _, List.Sublist.refl _⟩
  | (k, anns) :: rest => by
    obtain ⟨ih1, ih2⟩ := resolver_keys_sublist labelsOf rest
    rcases hls : labelsOf anns with _ | ⟨x, _ | ⟨y, ys⟩⟩
    · have heq : apply_agreement_check_ord labelsOf ((k, anns) :: rest)
          = ((apply_agreement_check_ord labelsOf rest).1,
             (k, ([] : List String)) :: (apply_agreement_check_ord labelsOf rest).2) := by
        rw [apply_agreement_check_ord, hls]
      rw [heq, List.map_cons]
      exact ⟨ih1.cons k, ih2.cons₂ k⟩
    · have heq : apply_agreement_check_ord labelsOf ((k, anns) :: rest)
          = ((k, x) :: (apply_agreement_check_ord labelsOf rest).1,
             (apply_agreement_check_ord labelsOf rest).2) := by
        rw [apply_agreement_check_ord, hls]
      rw [heq, List.map_cons]
      exact ⟨ih1.cons₂ k, ih2.cons k⟩
    · have heq : apply_agreement_check_ord labelsOf ((k, anns) :: rest)
          = ((apply_agreement_check_ord labelsOf rest).1,
             (k, x :: y :: ys) :: (apply_agreement_check_ord labelsOf rest).2) := by
        rw [apply_agreement_check_ord, hls]
      rw [heq, List.map_cons]
      exact ⟨ih1.cons k, ih2.cons₂ k⟩

/-- With distinct group keys, each group key lands in exactly one of the
two resolver outputs. -/
theorem resolver_keys_count (labelsOf : List Accepted → List String) :
    ∀ {G : List (String × List Accepted)}, (G.map Prod.fst).Nodup →
      ∀ {t : String}, t ∈ G.map Prod.fst →
      (((apply_agreement_check_ord labelsOf G).1.map Prod.fst)
        ++ ((apply_agreement_check_ord labelsOf G).2.map Prod.fst)).count t = 1 := by
  intro G
  induction G with
  | nil => intro _ t hmem; simp at hmem
  | cons p rest ih =>
    intro hnd t hmem
    rcases p with ⟨k, anns⟩
    rw [List.map_cons, List.nodup_cons] at hnd
    obtain ⟨hk, hnd'⟩ := hnd
    obtain ⟨hsub1, hsub2⟩ := resolver_keys_sublist labelsOf rest
    have hz : ∀ {t' : String}, t' ∉ rest.map Prod.fst →
        (((apply_agreement_check_ord labelsOf rest).1.map Prod.fst)
          ++ ((apply_agreement_check_ord labelsOf rest).2.map Prod.fst)).count t' = 0 := by
      intro t' hns
      rw [List.count_eq_zero]
      intro hc
      rcases List.mem_append.1 hc with hc | hc
      · exact hns (hsub1.subset hc)
      · exact hns (hsub2.subset hc)
    by_cases htk : t = k
    · subst htk
      rcases hls : labelsOf anns with _ | ⟨x, _ | ⟨y, ys⟩⟩
      · have heq : apply_agreement_check_ord labelsOf ((t, anns) :: rest)
            = ((apply_agreement_check_ord labelsOf rest).1,
               (t, ([] : List String)) :: (apply_agreement_check_ord labelsOf rest).2) := by
          rw [apply_agreement_check_ord, hls]
        rw [heq]
        simp only [List.map_cons, List.count_append, List.count_cons]
        have := hz hk
        rw [List.count_append] at this
        simp [beq_iff_eq] at this ⊢
        omega
      · have heq : apply_agreement_check_ord labelsOf ((t, anns) :: rest)
            = ((t, x) :: (apply_agreement_check_ord labelsOf rest).1,
               (apply_agreement_check_ord labelsOf rest).2) := by
          rw [apply_agreement_check_ord, hls]
        rw [heq]
        simp only [List.map_cons, List.count_append, List.count_cons]
        have := hz hk
        rw [List.count_append] at this
        simp [beq_iff_eq] at this ⊢
        omega
      · have heq : apply_agreement_check_ord labelsOf ((t, anns) :: rest)
            = ((apply_agreement_check_ord labelsOf rest).1,
               (t, x :: y :: ys) :: (apply_agreement_check_ord labelsOf rest).2) := by
          rw [apply_agreement_check_ord, hls]
        rw [heq]
        simp only [List.map_cons, List.count_append, List.count_cons]
        have := hz hk
        rw [List.count_append] at this
        simp [beq_iff_eq] at this ⊢
        omega
    · have hmem' : t ∈ rest.map Prod.fst := by
        rcases List.mem_cons.1 hmem with hc | hc
        · exact absurd hc htk
        · exact hc
      have hrec := ih hnd' hmem'
      rcases hls : labelsOf anns with _ | ⟨x, _ | ⟨y, ys⟩⟩
      · have heq : apply_agreement_check_ord labelsOf ((k, anns) :: rest)
            = ((apply_agreement_check_ord labelsOf rest).1,
               (k, ([] : List String)) :: (apply_agreement_check_ord labelsOf rest).2) := by
          rw [apply_agreement_check_ord, hls]
        rw [heq]
        rw [List.count_append] at hrec
        simp only [List.map_cons, List.count_append, List.count_cons]
        have hne : (k == t) = false := by
          rw [beq_eq_false_iff_ne]
          exact fun h => htk h.symm
        simp [hne]
        omega
      · have heq : apply_agreement_check_ord labelsOf ((k, anns) :: rest)
            = ((k, x) :: (apply_agreement_check_ord labelsOf rest).1,
               (apply_agreement_check_ord labelsOf rest).2) := by
          rw [apply_agreement_check_ord, hls]
        rw [heq]
        rw [List.count_append] at hrec
        simp only [List.map_cons, List.count_append, List.count_cons]
        have hne : (k == t) = false := by
          rw [beq_eq_false_iff_ne]
          exact fun h => htk h.symm
        simp [hne]
        omega
      · have heq : apply_agreement_check_ord labelsOf ((k, anns) :: rest)
            = ((apply_agreement_check_ord labelsOf rest).1,
               (k, x :: y :: ys) :: (apply_agreement_check_ord labelsOf rest).2) := by
          rw [apply_agreement_check_ord, hls]
        rw [heq]
        rw [List.count_append] at hrec
        simp only [List.map_cons, List.count_append, List.count_cons]
        have hne : (k == t) = false := by
          rw [beq_eq_false_iff_ne]
          exact fun h => htk h.symm
        simp [hne]
        omega

/-- C4.  Every distinct text value with at least one accepted record
appears in exactly one of the agreement resolver's two outputs: counting
its occurrences among the agreed keys plus the disagreement keys gives
exactly one (so it is in one of the two, never both, never neither, and
never twice in either). -/
theorem claimC4 (l : List Accepted) (t : String) (h : t ∈ l.map (·.text)) :
    (((apply_agreement_check (group_by_text l)).1.map Prod.fst)
      ++ ((apply_agreement_check (group_by_text l)).2.map Prod.fst)).count t = 1 := by
  rw [apply_agreement_check]
  apply resolver_keys_count
  · rw [group_by_text_eq, keys_groupSpec]
    exact nodup_dedupFirst _
  · rw [group_by_text_eq, keys_groupSpec]
    exact mem_dedupFirst.2 h

/-- C4 witness on the spec's disagreement scenario. -/
theorem claimC4_witness :
    (((apply_agreement_check (group_by_text
        [⟨"x", some "a", "cat", mkRat 9 10⟩,
         ⟨"x", some "b", "dog", mkRat 19 20⟩])).1.map Prod.fst)
      ++ ((apply_agreement_check (group_by_text
        [⟨"x", some "a", "cat", mkRat 9 10⟩,
         ⟨"x", some "b", "dog", mkRat 19 20⟩])).2.map Prod.fst)).count "x" = 1 :=
  claimC4 [⟨"x", some "a", "cat", mkRat 9 10⟩, ⟨"x", some "b", "dog", mkRat 19 20⟩]
    "x" (by decide)

/-- C5.  The resolver emits an AgreedSample for a text exactly when its
group's set of distinct labels has cardinality 1, and emits a Disagreement
exactly when that set has cardinality at least 2, the Disagreement carrying
the full set of distinct labels of the group; a single-annotation group
always agrees. -/
theorem claimC5 (l : List Accepted) :
    (∀ t, t ∈ (apply_agreement_check (group_by_text l)).1.map Prod.fst ↔
        ∃ g, (t, g) ∈ group_by_text l ∧ (distinctLabels g).length = 1) ∧
    (∀ t ls, (t, ls) ∈ (apply_agreement_check (group_by_text l)).2 ↔
        ∃ g, (t, g) ∈ group_by_text l ∧ ls = distinctLabels g
          ∧ (∀ s, s ∈ ls ↔ s ∈ g.map (·.label)) ∧ 2 ≤ ls.length) ∧
    (∀ t a, (t, [a]) ∈ group_by_text l →
        t ∈ (apply_agreement_check (group_by_text l)).1.map Prod.fst) := by
  have hre := agreement_check_ord_eq distinctLabels (group_by_text l)
  have h1 : ∀ t, t ∈ (apply_agreement_check (group_by_text l)).1.map Prod.fst ↔
      ∃ g, (t, g) ∈ group_by_text l ∧ (distinctLabels g).length = 1 := by
    intro t
    rw [apply_agreement_check, hre]
    constructor
    · intro hmem
      rcases List.mem_map.1 hmem with ⟨q, hq, hqt⟩
      rcases List.mem_map.1 hq with ⟨p, hpf, rfl⟩
      rcases List.mem_filter.1 hpf with ⟨hpG, hP⟩
      rw [← hqt]
      exact ⟨p.2, hpG, by simpa using hP⟩
    · rintro ⟨g, hg, hlen⟩
      exact List.mem_map.2
        ⟨(t, (distinctLabels g).headI),
         List.mem_map.2 ⟨(t, g), List.mem_filter.2 ⟨hg, by simp [hlen]⟩, rfl⟩, rfl⟩
  refine ⟨h1, ?_, ?_⟩
  · intro t ls
    rw [apply_agreement_check, hre]
    constructor
    · intro hmem
      rcases List.mem_map.1 hmem with ⟨p, hpf, heq⟩
      rcases List.mem_filter.1 hpf with ⟨hpG, hP⟩
      rw [Prod.mk.injEq] at heq
      obtain ⟨hpt, hpl⟩ := heq
      have hne : p.2 ≠ [] := by
        have hmem' : (p.1, p.2) ∈ groupSpec l := by
          rw [← group_by_text_eq]
          exact hpG
        exact groupSpec_group_ne_nil hmem'
      have hdne : distinctLabels p.2 ≠ [] := distinctLabels_ne_nil hne
      have hlen1 : (distinctLabels p.2).length ≠ 1 := by
        intro hc
        rw [hc] at hP
        simp at hP
      have hlen0 : (distinctLabels p.2).length ≠ 0 := by
        intro hc
        exact hdne (List.eq_nil_of_length_eq_zero hc)
      refine ⟨p.2, by rw [← hpt]; exact hpG, hpl.symm, ?_, ?_⟩
      · intro s
        rw [← hpl]
        exact mem_distinctLabels
      · rw [← hpl]
        omega
    · rintro ⟨g, hg, rfl, _, hlen⟩
      refine List.mem_map.2 ⟨(t, g), List.mem_filter.2 ⟨hg, ?_⟩, rfl⟩
      have hne1 : (distinctLabels g).length ≠ 1 := by omega
      simp [hne1]
  · intro t a h
    exact (h1 t).2 ⟨[a], h, by simp [distinctLabels, dedupFirst, dedupFirstAux]⟩

/-- C5 witness: a single-annotation group trivially agrees. -/
theorem claimC5_witness :
    "hello" ∈ (apply_agreement_check (group_by_text
        [⟨"hello", some "alice", "pos", mkRat 9 10⟩])).1.map Prod.fst :=
  (claimC5 [⟨"hello", some "alice", "pos", mkRat 9 10⟩]).2.2 "hello"
    ⟨"hello", some "alice", "pos", mkRat 9 10⟩ (by decide)

/-- C6.  The grouper partitions the accepted records by exact string
equality of `text`: it equals the specification mapping (each first-seen
distinct text, in order, mapped to the ordered sublist of records with
that text), its keys are distinct, every member of a group carries the
group's text, and flattening the groups recovers the accepted records up
to permutation — each accepted record is in exactly one group, keyed by
its own text, with first-seen order preserved for keys and group members. -/
theorem claimC6 (l : List Accepted) :
    group_by_text l = groupSpec l ∧
    ((group_by_text l).map Prod.fst).Nodup ∧
    (∀ p ∈ group_by_text l, ∀ a ∈ p.2, a.text = p.1) ∧
    ((group_by_text l).flatMap Prod.snd).Perm l := by
  refine ⟨group_by_text_eq l, ?_, ?_, ?_⟩
  · rw [group_by_text_eq, keys_groupSpec]
    exact nodup_dedupFirst _
  · intro p hp a ha
    rcases p with ⟨t, g⟩
    rw [group_by_text_eq] at hp
    exact text_eq_of_mem_group hp ha
  · rw [group_by_text_eq]
    exact groupSpec_flatten_perm l

/-- C6 witness on a two-record group. -/
theorem claimC6_witness :
    (Accepted.mk "x" (some "a") "cat" (mkRat 9 10)).text = "x" :=
  (claimC6 [⟨"x", some "a", "cat", mkRat 9 10⟩, ⟨"x", some "b", "dog", mkRat 19 20⟩]).2.2.1
    ("x", [⟨"x", some "a", "cat", mkRat 9 10⟩, ⟨"x", some "b", "dog", mkRat 19 20⟩])
    (by decide) ⟨"x", some "a", "cat", mkRat 9 10⟩ (by decide)

/-- C7.  For every disagreement (text, labels) the writer emits exactly
one newline-terminated record of the literal form
`TEXT: <text> | LABELS: <label1>, <label2>, ...`, where the labels are
sorted lexicographically (code-point order, as Python compares strings)
and joined by comma-and-space; and when the texts and labels contain no
newline character (as with single-line CSV fields), the report contains
exactly one physical line per disagreement. -/
theorem claimC7 (dis : List (String × List String)) :
    writeDisagreements dis
        = String.join (dis.map fun p => disagreementLine p.1 p.2 ++ "\n") ∧
    (∀ t ls, (t, ls) ∈ dis →
        disagreementLine t ls
            = "TEXT: " ++ t ++ " | LABELS: " ++ joinSep ", " (sortedStrings ls) ∧
        (sortedStrings ls).Perm ls ∧ List.Sorted SLe (sortedStrings ls)) ∧
    ((∀ p ∈ dis, '\n' ∉ p.1.data ∧ ∀ s ∈ p.2, '\n' ∉ s.data) →
        ((writeDisagreements dis).data).count '\n' = dis.length) := by
  refine ⟨rfl, ?_, ?_⟩
  · intro t ls _
    exact ⟨rfl, sortedStrings_perm ls, sortedStrings_sorted ls⟩
  · intro h
    apply count_newline_writeDisagreements
    intro p hp
    exact newline_not_mem_disagreementLine (h p hp).1 (h p hp).2

/-- C7 witness on the spec's disagreement scenario (labels arrive
unsorted, the record sorts them). -/
theorem claimC7_witness :
    (disagreementLine "x" ["dog", "cat"]
        = "TEXT: " ++ "x" ++ " | LABELS: " ++ joinSep ", " (sortedStrings ["dog", "cat"])) ∧
    ((writeDisagreements [("x", ["dog", "cat"])]).data).count '\n' = 1 :=
  ⟨((claimC7 [("x", ["dog", "cat"])]).2.1 "x" ["dog", "cat"] (by simp)).1,
   (claimC7 [("x", ["dog", "cat"])]).2.2 (by decide)⟩

/-- C8.  The clean dataset contains exactly one line per agreed sample:
its bytes are the concatenation, in order, of one newline-terminated
`json.dumps` record per agreed sample; each such line parses back to
exactly the two fields text and label; its newline count equals the number
of agreed samples (none omitted, none duplicated); and with distinct
agreed texts the lines are pairwise distinct. -/
theorem claimC8 (agreed : List (String × String))
    (hkeys : (agreed.map Prod.fst).Nodup) :
    writeClean agreed = String.join (agreed.map fun p => dumpsRecord p.1 p.2 ++ "\n") ∧
    (∀ t lb, parseRecordLine (dumpsRecord t lb) = some (t, lb)) ∧
    ((writeClean agreed).data).count '\n' = agreed.length ∧
    (agreed.map fun p => dumpsRecord p.1 p.2).Nodup := by
  refine ⟨rfl, fun t lb => parseRecordLine_dumpsRecord t lb,
    count_newline_writeClean agreed, ?_⟩
  have hinj : Function.Injective fun p : String × String => dumpsRecord p.1 p.2 := by
    intro p q h
    have hp := parseRecordLine_dumpsRecord p.1 p.2
    have hq := parseRecordLine_dumpsRecord q.1 q.2
    simp only at h
    rw [h] at hp
    exact Option.some.inj (hp.symm.trans hq)
  exact List.Nodup.map hinj (List.Nodup.of_map Prod.fst hkeys)

/-- C8 witness at the spec's first scenario. -/
theorem claimC8_witness :
    parseRecordLine (dumpsRecord "hello" "pos") = some ("hello", "pos") ∧
    ((writeClean [("hello", "pos")]).data).count '\n' = 1 :=
  ⟨(claimC8 [("hello", "pos")] (by decide)).2.1 "hello" "pos",
   (claimC8 [("hello", "pos")] (by decide)).2.2.1⟩

/-- C9.  Determinism of the pipeline.  The only run-to-run internal choice
in a run (for a fixed parsed input and threshold) is the iteration order
of each group's label set, a Python set whose enumeration varies with hash
seeding; for any two valid enumerations of those sets the full pipeline
(filter, group, resolve, write) produces equal `Except` results — in
particular byte-identical clean-dataset and disagreement-report contents —
and the actual run (canonical enumeration) equals either.  Hence two runs
on identical input produce byte-identical outputs. -/
theorem claimC9 {lo₁ lo₂ : List Accepted → List String}
    (h₁ : IsLabelSetEnum lo₁) (h₂ : IsLabelSetEnum lo₂)
    (input : List RawRecord) (threshold : ℚ) :
    pipelineWith lo₁ input threshold = pipelineWith lo₂ input threshold ∧
    pipeline input threshold = pipelineWith lo₁ input threshold :=
  ⟨pipelineWith_congr h₁ h₂ input threshold,
   pipelineWith_congr distinctLabels_setEnum h₁ input threshold⟩

/-- C9 witness: the canonical and the reversed label-set enumerations give
byte-identical outputs on the spec's disagreement scenario. -/
theorem claimC9_witness :
    pipelineWith distinctLabels
        [⟨some "x", some "a", some "cat", some "0.9"⟩,
         ⟨some "x", some "b", some "dog", some "0.95"⟩] CONFIDENCE_THRESHOLD
      = pipelineWith (fun anns => (distinctLabels anns).reverse)
        [⟨some "x", some "a", some "cat", some "0.9"⟩,
         ⟨some "x", some "b", some "dog", some "0.95"⟩] CONFIDENCE_THRESHOLD :=
  (claimC9 distinctLabels_setEnum reverse_setEnum
    [⟨some "x", some "a", some "cat", some "0.9"⟩,
     ⟨some "x", some "b", some "dog", some "0.95"⟩] CONFIDENCE_THRESHOLD).1

/-- C10.  The texts of the clean-dataset lines and of the disagreement
report lines appear in first-seen order of each text's first accepted
occurrence: the agreed keys and the disagreement keys are subsequences of
the first-seen sequence of distinct texts, and each writer emits exactly
one record per entry in that key order. -/
theorem claimC10 (l : List Accepted) :
    ((apply_agreement_check (group_by_text l)).1.map Prod.fst).Sublist
        (dedupFirst (l.map (·.text))) ∧
    ((apply_agreement_check (group_by_text l)).2.map Prod.fst).Sublist
        (dedupFirst (l.map (·.text))) ∧
    writeClean (apply_agreement_check (group_by_text l)).1
        = String.join ((apply_agreement_check (group_by_text l)).1.map
            fun p => dumpsRecord p.1 p.2 ++ "\n") ∧
    writeDisagreements (apply_agreement_check (group_by_text l)).2
        = String.join ((apply_agreement_check (group_by_text l)).2.map
            fun p => disagreementLine p.1 p.2 ++ "\n") := by
  obtain ⟨hs1, hs2⟩ := resolver_keys_sublist distinctLabels (group_by_text l)
  have hkeys : (group_by_text l).map Prod.fst = dedupFirst (l.map (·.text)) := by
    rw [group_by_text_eq, keys_groupSpec]
  rw [hkeys] at hs1 hs2
  exact ⟨hs1, hs2, rfl, rfl⟩

/-! ### Sanity checks evaluating the embedding on concrete inputs -/

-- sanity checks on the float model and the filter
example : pyFloat "0.9" = some (mkRat 9 10) := by decide
example : pyFloat "abc" = none := by decide
example : pyFloat "1e-2" = some (mkRat 1 100) := by decide
example : pyFloat "-3.5" = some (mkRat (-7) 2) := by decide
example : pyFloat "" = none := by decide
example : pyFloat "1.2.3" = none := by decide
example :
    filter_by_confidence
      [⟨some "hello", some "alice", some "pos", some "0.9"⟩,
       ⟨some "world", some "carol", some "neg", some "0.5"⟩]
      CONFIDENCE_THRESHOLD
    = Except.ok [⟨"hello", some "alice", "pos", mkRat 9 10⟩] := by rfl
example :
    filter_by_confidence [⟨none, none, none, some "0.9"⟩] CONFIDENCE_THRESHOLD
    = Except.error "KeyError" := by rfl
example :
    filter_by_confidence [⟨some "x", none, some "cat", some "0.8"⟩] CONFIDENCE_THRESHOLD
    = Except.ok [⟨"x", none, "cat", mkRat 8 10⟩] := by rfl

-- sanity checks: the two scenarios of the spec
example :
    pipeline
      [⟨some "hello", some "alice", some "pos", some "0.9"⟩,
       ⟨some "hello", some "bob", some "pos", some "0.85"⟩,
       ⟨some "world", some "carol", some "neg", some "0.5"⟩]
      CONFIDENCE_THRESHOLD
    = Except.ok ("\x7b\"text\": \"hello\", \"label\": \"pos\"\x7d\n", "") := by rfl

example :
    pipeline
      [⟨some "x", some "a", some "cat", some "0.9"⟩,
       ⟨some "x", some "b", some "dog", some "0.95"⟩]
      CONFIDENCE_THRESHOLD
    = Except.ok ("", "TEXT: x | LABELS: cat, dog\n") := by rfl
